import Mathlib

/-!
Verification development for the pylrclibup repository.

The definitions below are a shallow embedding, in Lean 4, of the Python
sources under `src/pylrclibup/`:

  * `lrc/parser.py`   — `normalize_name`, the LRC line classifier
    `parse_lrc_file`, and `write_lrc_file`;
  * `lrc/matcher.py`  — `split_artists`, `match_artists`,
    `parse_lrc_filename`, `find_lrc_for_track`;
  * `fs/mover.py`     — `move_with_dedup`;
  * `processor/core.py` — `process_track`, embedded as a trace of the
    externally visible effects it performs.

Python strings are embedded as `List Char` (with `String` wrappers at the
boundaries).  The behaviour of the Python standard library primitives the
sources rely on (`str.lower`, `str.strip`, `unicodedata.normalize('NFKC', ·)`,
`unicodedata.category`, the `re` patterns) is embedded character by character,
restricted to the character repertoire exercised in this development, and
matching the Unicode character data that CPython's `unicodedata` module
implements for those characters.
-/

/-- Python whitespace (`\s` of the `re` module and the default `str.strip`
set): ASCII whitespace and the Unicode space/line separators. -/
def isPyWs (c : Char) : Bool :=
  c == ' ' || (0x9 ≤ c.toNat && c.toNat ≤ 0xd) || (0x1c ≤ c.toNat && c.toNat ≤ 0x1f)
    || c.toNat == 0x85 || c.toNat == 0xa0 || c.toNat == 0x1680
    || (0x2000 ≤ c.toNat && c.toNat ≤ 0x200a)
    || c.toNat == 0x2028 || c.toNat == 0x2029 || c.toNat == 0x202f
    || c.toNat == 0x205f || c.toNat == 0x3000

/-- `unicodedata.category(ch)[0] in ('C', 'Z')`: control/format characters and
separator characters, on the repertoire used here (ASCII controls, C1
controls, Unicode spaces, zero-width/format characters). -/
def isPyCZ (c : Char) : Bool :=
  c.toNat < 0x20 || (0x7f ≤ c.toNat && c.toNat ≤ 0x9f)
    || c.toNat == 0xa0 || c.toNat == 0xad || c.toNat == 0x1680
    || (0x2000 ≤ c.toNat && c.toNat ≤ 0x200f)
    || (0x2028 ≤ c.toNat && c.toNat ≤ 0x202f)
    || c.toNat == 0x205f || (0x2060 ≤ c.toNat && c.toNat ≤ 0x2064)
    || c.toNat == 0x3000 || c.toNat == 0xfeff

/-- Python `str.lower`, character-wise, on the characters used in this
development: ASCII letters and the five Cyrillic capitals whose lowercase
forms appear in `normalize_name`'s mapping table.  All other characters used
here (including the modifier capital `ᴬ`, category Lm, which has no lowercase
mapping in Unicode) are fixed points of `str.lower`. -/
def pyLower (c : Char) : Char :=
  if 'A' ≤ c && c ≤ 'Z' then Char.ofNat (c.toNat + 32)
  else if c == 'Ё' then 'ё'
  else if c == 'І' then 'і'
  else if c == 'Ї' then 'ї'
  else if c == 'Є' then 'є'
  else if c == 'Ґ' then 'ґ'
  else c

/-- `unicodedata.normalize('NFKC', ·)`, character-wise, on the repertoire used
here.  The fullwidth punctuation forms (U+FF01..U+FF5E block) have NFKC
compatibility decompositions to their ASCII counterparts, and the modifier
capital `ᴬ` (U+1D2C, compatibility decomposition `<super> A`) normalizes to
the plain capital `A`.  ASCII, CJK punctuation (`。`, `、`, `【`, `】`), kana,
han, and precomposed Cyrillic characters are NFKC-invariant. -/
def nfkcChar (c : Char) : List Char :=
  if c == 'ᴬ' then ['A']
  else if c == '（' then ['(']
  else if c == '）' then [')']
  else if c == '：' then [':']
  else if c == '，' then [',']
  else if c == '！' then ['!']
  else if c == '？' then ['?']
  else if c == '＆' then ['&']
  else if c == '／' then ['/']
  else if c == '；' then [';']
  else [c]

/-- The Cyrillic look-alike replacement table of `normalize_name`
(`cyrillic_map` in `lrc/parser.py`).  Every key and value is a single
character, and no value is itself a key, so the sequential `str.replace`
passes of the source are equivalent to this character map. -/
def cyrChar (c : Char) : Char :=
  if c == 'ё' then 'е'
  else if c == 'і' then 'и'
  else if c == 'ї' then 'и'
  else if c == 'є' then 'е'
  else if c == 'ґ' then 'г'
  else c

/-- The fullwidth-punctuation replacement table of `normalize_name`
(`replacements` in `lrc/parser.py`); same single-character-pairs argument as
for `cyrChar`. -/
def punctChar (c : Char) : Char :=
  if c == '（' then '('
  else if c == '）' then ')'
  else if c == '【' then '['
  else if c == '】' then ']'
  else if c == '：' then ':'
  else if c == '。' then '.'
  else if c == '，' then ','
  else if c == '！' then '!'
  else if c == '？' then '?'
  else if c == '＆' then '&'
  else if c == '／' then '/'
  else if c == '；' then ';'
  else c

/-- The keep-condition of `normalize_name`'s filtering step:
`unicodedata.category(ch)[0] not in ('C', 'Z') or ch == ' '`. -/
def keepCh (c : Char) : Bool :=
  !(isPyCZ c) || c == ' '

/-- Drop trailing Python whitespace (the tail half of `str.strip`). -/
def dropTrailWs : List Char → List Char
  | [] => []
  | c :: rest =>
    let r := dropTrailWs rest
    if r.isEmpty && isPyWs c then [] else c :: r

/-- Python `str.strip()` on `List Char`. -/
def pyStripL (l : List Char) : List Char :=
  dropTrailWs (l.dropWhile isPyWs)

mutual

/-- `re.sub(r"\s+", " ", ·)`: collapse every maximal run of Python whitespace
to a single space. -/
def collapseWs : List Char → List Char
  | [] => []
  | c :: rest =>
    if isPyWs c then ' ' :: collapseWsSkip rest else c :: collapseWs rest

/-- Helper of `collapseWs`: inside a whitespace run, skip the remaining
whitespace characters. -/
def collapseWsSkip : List Char → List Char
  | [] => []
  | c :: rest =>
    if isPyWs c then collapseWsSkip rest else c :: collapseWs rest

end

/-- `normalize_name` of `lrc/parser.py` on `List Char`: strip, lowercase,
NFKC, Cyrillic look-alike mapping, fullwidth punctuation mapping, removal of
control/separator characters except the plain space, whitespace collapsing,
final strip. -/
def normalizeL (s : List Char) : List Char :=
  let s1 := pyStripL s
  let s2 := s1.map pyLower
  let s3 := s2.flatMap nfkcChar
  let s4 := s3.map cyrChar
  let s5 := s4.map punctChar
  let s6 := s5.filter keepCh
  let s7 := collapseWs s6
  pyStripL s7

/-- `normalize_name` of `lrc/parser.py`. -/
def normalize_name (s : String) : String :=
  String.mk (normalizeL s.data)

/-- Python `\w` (word character) on the ASCII repertoire exercised by the
artist-splitting inputs of this development: letters, digits, underscore. -/
def isWordChar (c : Char) : Bool :=
  c.isAlphanum || c == '_'

/-- `re.sub(r"\bfeat\.?\b", ",", ·)` of `split_artists`, scanning left to
right with backtracking semantics.  The `prevW` flag records whether the
character just before the current scan position is a word character (so `\b`
holds at the position iff `prevW` disagrees with the next character's word
status).  Note that after matching `feat`, the optional `\.` can only be part
of the match when a word character follows the period — between `.` and a
non-word character (or end of input) there is no word boundary, so the regex
backtracks and matches the bare `feat`, leaving the period in place.  Fuel is
one more than the input length; every step consumes at least one character. -/
def subFeat : Nat → Bool → List Char → List Char
  | 0, _, l => l
  | _ + 1, _, [] => []
  | fuel + 1, prevW, 'f' :: 'e' :: 'a' :: 't' :: rest =>
    if prevW then 'f' :: subFeat fuel true ('e' :: 'a' :: 't' :: rest)
    else
      match rest with
      | '.' :: c :: r2 =>
        if isWordChar c then ',' :: subFeat fuel false (c :: r2)
        else ',' :: subFeat fuel true ('.' :: c :: r2)
      | ['.'] => ',' :: subFeat fuel true ['.']
      | [] => ',' :: subFeat fuel true []
      | c :: r2 =>
        if isWordChar c then 'f' :: subFeat fuel true ('e' :: 'a' :: 't' :: c :: r2)
        else ',' :: subFeat fuel true (c :: r2)
  | fuel + 1, _, c :: cs => c :: subFeat fuel (isWordChar c) cs

/-- `re.sub(r"\b<w>\b", ",", ·)` for a fixed nonempty all-word-character word
`w` (used with `featuring`). -/
def subWord (w : List Char) : Nat → Bool → List Char → List Char
  | 0, _, l => l
  | _ + 1, _, [] => []
  | fuel + 1, prevW, c :: cs =>
    let rest := (c :: cs).drop w.length
    if !prevW && w.isPrefixOf (c :: cs) && (rest.isEmpty || !isWordChar (rest.headD ' ')) then
      ',' :: subWord w fuel true rest
    else c :: subWord w fuel (isWordChar c) cs

/-- Python `str.replace(pat, rep)` for a nonempty pattern: leftmost,
non-overlapping occurrences, scanning left to right. -/
def replaceStr (pat rep : List Char) : Nat → List Char → List Char
  | 0, l => l
  | _ + 1, [] => []
  | fuel + 1, c :: cs =>
    if pat.isPrefixOf (c :: cs) && !pat.isEmpty then
      rep ++ replaceStr pat rep fuel ((c :: cs).drop pat.length)
    else c :: replaceStr pat rep fuel cs

/-- Python `str.split(',')`: splits at every comma; an empty string yields
one empty field. -/
def splitComma : List Char → List (List Char)
  | [] => [[]]
  | ',' :: rest => [] :: splitComma rest
  | c :: rest =>
    match splitComma rest with
    | [] => [[c]]
    | g :: gs => (c :: g) :: gs

/-- Order-preserving duplicate removal (`list(dict.fromkeys(·))`). -/
def dedupKeep : List String → List String → List String
  | _, [] => []
  | seen, x :: xs =>
    if x ∈ seen then dedupKeep seen xs else x :: dedupKeep (x :: seen) xs

/-- `split_artists` of `lrc/matcher.py`: lowercase; substitute the
feature-credit markers `feat.` / `featuring` (word-boundary-delimited) with a
comma; replace each separator of the fixed list with a comma (sequential
`str.replace` passes, in source order — the ` X ` pass can no longer match
after lowercasing); split on commas; strip each token, drop the empty ones,
and deduplicate keeping first-seen order. -/
def split_artists (s : String) : List String :=
  let l0 := s.data.map pyLower
  let l1 := subFeat (l0.length + 1) false l0
  let l2 := subWord "featuring".data (l1.length + 1) false l1
  let seps : List String := ["&", "和", "/", ";", "、", " x ", " X ", "×", "，", "､"]
  let l3 := seps.foldl (fun acc sep => replaceStr sep.data [','] (acc.length + 1) acc) l2
  let toks := ((splitComma l3).map pyStripL).filter (fun t => !t.isEmpty)
  dedupKeep [] (toks.map String.mk)

/-- `match_artists` of `lrc/matcher.py`: the two normalized artist sets
intersect (Python builds two sets and tests `not isdisjoint`, which holds iff
some pair of normalized names coincides). -/
def match_artists (mp3Artists lrcArtists : List String) : Bool :=
  mp3Artists.any (fun a => lrcArtists.any (fun b => normalize_name a == normalize_name b))

/-- Take up to `n` leading ASCII digits. -/
def digitsTake : Nat → List Char → List Char × List Char
  | 0, l => ([], l)
  | _ + 1, [] => ([], [])
  | n + 1, c :: cs =>
    if c.isDigit then
      let (d, r) := digitsTake n cs
      (c :: d, r)
    else ([], c :: cs)

/-- `TIMESTAMP_RE.match` of `lrc/parser.py` — does the string begin with the
standard timestamp `\[\d{2}:\d{2}\.\d{2,3}\]`?  The greedy 2-or-3-digit
fraction can only be followed by `]`; after taking three digits, a fourth
digit in the input makes both the 3- and the 2-digit alternatives fail. -/
def tsMatch (s : List Char) : Bool :=
  match s with
  | '[' :: a :: b :: ':' :: c :: d :: '.' :: e :: f :: rest =>
    a.isDigit && b.isDigit && c.isDigit && d.isDigit && e.isDigit && f.isDigit &&
      (match rest with
       | ']' :: _ => true
       | g :: ']' :: _ => g.isDigit
       | _ => false)
  | _ => false

/-- The optional `(?:-\d{1,3})?` disambiguator followed by the closing `]` of
`EXTENDED_TIMESTAMP_RE`; returns the consumed characters and the remainder.
Greedy digit runs are deterministic: stopping short of the full (≤ 3) digit
run leaves a digit as the next character, which can match neither `-` nor
`]`, so only the maximal run needs to be considered. -/
def extDash (l : List Char) : Option (List Char × List Char) :=
  match l with
  | '-' :: rest =>
    let (ds, r) := digitsTake 3 rest
    match r with
    | ']' :: r2 => if ds.isEmpty then none else some ('-' :: ds ++ [']'], r2)
    | _ => none
  | ']' :: rest => some ([']'], rest)
  | _ => none

/-- The optional `(?:\.\d{1,3}(?:-\d{1,3})?)?` fraction followed by the
closing `]` of `EXTENDED_TIMESTAMP_RE`. -/
def extFrac (l : List Char) : Option (List Char × List Char) :=
  match l with
  | '.' :: rest =>
    let (ds, r) := digitsTake 3 rest
    if ds.isEmpty then none
    else
      match extDash r with
      | some (consumed, r2) => some ('.' :: ds ++ consumed, r2)
      | none => none
  | ']' :: rest => some ([']'], rest)
  | _ => none

/-- `EXTENDED_TIMESTAMP_RE.match` of `lrc/parser.py`
(`\[\d{2}:\d{2}(?:\.\d{1,3}(?:-\d{1,3})?)?\]`): when the string begins with
an extended timestamp, return the matched prefix (Python's `group(0)`) and
the remainder of the string. -/
def extTs (s : List Char) : Option (List Char × List Char) :=
  match s with
  | '[' :: a :: b :: ':' :: c :: d :: rest =>
    if a.isDigit && b.isDigit && c.isDigit && d.isDigit then
      match extFrac rest with
      | some (consumed, r) => some ('[' :: a :: b :: ':' :: c :: d :: consumed, r)
      | none => none
    else none
  | _ => none

/-- `HEADER_TAG_RE.match` of `lrc/parser.py` (`^\[[a-zA-Z]{2,3}:.+\]$`): the
whole line is a bracketed tag of two or three ASCII letters, a colon, and a
nonempty body ending with `]`.  (`.` cannot match a newline; the lines this
is applied to never contain one.)  The two template shapes are mutually
exclusive — the character after the letters must be the colon. -/
def headerTag (s : List Char) : Bool :=
  match s with
  | '[' :: a :: b :: ':' :: rest =>
    a.isAlpha && b.isAlpha && rest.length ≥ 2 && rest.getLastD ' ' == ']'
      && !(rest.dropLast.contains '\n')
  | '[' :: a :: b :: c :: ':' :: rest =>
    a.isAlpha && b.isAlpha && c.isAlpha && rest.length ≥ 2 && rest.getLastD ' ' == ']'
      && !(rest.dropLast.contains '\n')
  | _ => false

/-- `CREDIT_KEYWORDS` of `lrc/parser.py`. -/
def CREDIT_KEYWORDS : List (List Char) :=
  ["作词".data, "作曲".data, "编曲".data, "混音".data, "缩混".data, "录音".data,
   "母带".data, "制作".data, "监制".data, "和声".data, "配唱".data, "制作人".data,
   "演唱".data, "伴奏".data, "编配".data, "吉他".data, "贝斯".data, "鼓".data,
   "键盘".data, "弦乐".data, "制作团队".data, "打击乐".data, "采样".data,
   "音效".data, "人声".data, "合成器".data, "录音师".data, "混音师".data,
   "编曲师".data, "出品".data, "发行".data, "企划".data, "统筹".data,
   "后期".data, "音乐总监".data]

/-- One alternative of `CREDIT_RE`: the text starts with the keyword, then
`\s*`, a full- or half-width colon, `\s*`, and a nonempty remainder running
to the end of the line (`.+$`; the lines this is applied to contain no
newline). -/
def creditMatchKw (kw t : List Char) : Bool :=
  kw.isPrefixOf t &&
    (match (t.drop kw.length).dropWhile isPyWs with
     | ':' :: r2 => !((r2.dropWhile isPyWs).isEmpty)
     | '：' :: r2 => !((r2.dropWhile isPyWs).isEmpty)
     | _ => false)

/-- `CREDIT_RE.match` of `lrc/parser.py` as a Boolean: some production-credit
keyword alternative matches. -/
def creditLine (t : List Char) : Bool :=
  CREDIT_KEYWORDS.any (fun kw => creditMatchKw kw t)

/-- `PURE_MUSIC_PHRASES` of `lrc/parser.py`. -/
def PURE_MUSIC_PHRASES : List (List Char) :=
  ["纯音乐，请欣赏".data, "纯音乐, 请欣赏".data, "纯音乐 请欣赏".data,
   "此歌曲为没有填词的纯音乐".data, "instrumental".data]

/-- Substring test (Python's `p in text`). -/
def containsSub (pat : List Char) : List Char → Bool
  | [] => pat.isEmpty
  | c :: rest => pat.isPrefixOf (c :: rest) || containsSub pat rest

/-- `any(p in text_no_tag for p in PURE_MUSIC_PHRASES)`. -/
def pureContains (t : List Char) : Bool :=
  PURE_MUSIC_PHRASES.any (fun p => containsSub p t)

/-- `_contains_cjk` of `lrc/parser.py`: the text has a character in the
kana or han Unicode ranges. -/
def cjkAny (t : List Char) : Bool :=
  t.any (fun c =>
    (0x3040 ≤ c.toNat && c.toNat ≤ 0x309F) || (0x30A0 ≤ c.toNat && c.toNat ≤ 0x30FF)
      || (0x3400 ≤ c.toNat && c.toNat ≤ 0x4DBF) || (0x4E00 ≤ c.toNat && c.toNat ≤ 0x9FFF))

/-- The loop state of `parse_lrc_file`: accumulated synced/plain lines, the
instrumental flag, whether the first standard timestamp has been seen, and
the previous line's timestamp (for translation-duplicate detection). -/
structure PState where
  synced : List (List Char)
  plain : List (List Char)
  instr : Bool
  started : Bool
  prev : Option (List Char)
deriving DecidableEq, Repr

/-- The initial loop state of `parse_lrc_file`. -/
def initPS : PState := ⟨[], [], false, false, none⟩

/-- One iteration of the `for line in raw.splitlines()` loop of
`parse_lrc_file`, classifying a single line.  `line` is the raw line, `s` its
stripped form; until the first standard-timestamp line every line is
discarded as file-header noise. -/
def stepFn (rt : Bool) (st : PState) (line : List Char) : PState :=
  let s := pyStripL line
  if !st.started && !(tsMatch s) then st
  else
    let st1 := { st with started := true }
    if s.isEmpty then
      { st1 with synced := st1.synced ++ [[]], plain := st1.plain ++ [[]], prev := none }
    else if headerTag s then
      { st1 with synced := st1.synced ++ [line], prev := none }
    else
      match extTs s with
      | some (ts, restRaw) =>
        let t := pyStripL restRaw
        if !t.isEmpty && pureContains t then { st1 with instr := true, prev := none }
        else if !t.isEmpty && creditLine t then { st1 with prev := none }
        else if rt && st1.prev == some ts && cjkAny t then st1
        else
          { st1 with synced := st1.synced ++ [line], plain := st1.plain ++ [t],
                     prev := some ts }
      | none =>
        { st1 with synced := st1.synced ++ [line],
                   plain := st1.plain ++ (if !s.isEmpty then [s] else []),
                   prev := none }

/-- The trailing `while` loops of `parse_lrc_file`: pop leading and trailing
empty entries off the plain-lyrics list. -/
def trimBlankEnds (l : List (List Char)) : List (List Char) :=
  let l1 := l.dropWhile List.isEmpty
  (l1.reverse.dropWhile List.isEmpty).reverse

/-- `"\n".join(·)` on embedded lines. -/
def joinNl (lines : List (List Char)) : List Char :=
  List.intercalate ['\n'] lines

/-- `ParsedLRC` of `lrc/parser.py`. -/
structure ParsedLRC where
  synced : String
  plain : String
  is_instrumental : Bool
deriving DecidableEq, Repr

/-- The line-processing loop and output assembly of `parse_lrc_file`, taking
the already-split lines. -/
def parse_lrc_lines (rt : Bool) (lines : List (List Char)) : ParsedLRC :=
  let st := lines.foldl (stepFn rt) initPS
  ⟨String.mk (joinNl st.synced), String.mk (joinNl (trimBlankEnds st.plain)), st.instr⟩

/-- `raw.replace("\r\n", "\n").replace("\r", "\n")`. -/
def normEol : List Char → List Char
  | [] => []
  | '\r' :: '\n' :: rest => '\n' :: normEol rest
  | '\r' :: rest => '\n' :: normEol rest
  | c :: rest => c :: normEol rest

/-- `str.splitlines()` after line-ending normalization: split on `\n`, with
no trailing empty line for a trailing newline, and no line at all for the
empty string.  (Python additionally breaks on rare control separators such as `\v` and U+2028; none occur after `normEol` in the inputs considered
here.) -/
def splitLinesGo : List Char → List Char → List (List Char)
  | [], cur => [cur.reverse]
  | '\n' :: rest, cur =>
    cur.reverse :: (match rest with | [] => [] | _ => splitLinesGo rest [])
  | c :: rest, cur => splitLinesGo rest (c :: cur)

/-- Top-level entry of the line splitter: the empty string has no lines. -/
def splitLinesL (l : List Char) : List (List Char) :=
  match l with
  | [] => []
  | _ => splitLinesGo l []

/-- `parse_lrc_file` of `lrc/parser.py`, taking the decoded file content
(the `read_text_any` multi-encoding decode is the identity on already-decoded
text) and the `remove_translations` flag. -/
def parse_lrc (rt : Bool) (raw : String) : ParsedLRC :=
  parse_lrc_lines rt (splitLinesL (normEol raw.data))

/-- Split at the first occurrence of the literal separator `" - "`
(`stem.split(" - ", 1)` guarded by the `" - " in stem` membership test of
`parse_lrc_filename`). -/
def splitDashOnce : List Char → Option (List Char × List Char)
  | [] => none
  | ' ' :: '-' :: ' ' :: rest => some ([], rest)
  | c :: rest => (splitDashOnce rest).map (fun p => (c :: p.1, p.2))

/-- `parse_lrc_filename` of `lrc/matcher.py`, on the file's stem: the artist
portion goes through `split_artists`, the title portion through
`normalize_name`; a stem without `" - "` yields no artists and an empty
title. -/
def parse_lrc_filename (stem : String) : List String × String :=
  match splitDashOnce stem.data with
  | none => ([], "")
  | some (a, t) => (split_artists (String.mk a), normalize_name (String.mk t))

/-- A candidate lyric file as seen by `find_lrc_for_track`: its path (used
for the enumeration order and as the returned value) and its stem (the
filename without extension, used for matching). -/
structure LrcFile where
  path : String
  stem : String
deriving DecidableEq, Repr

/-- The matching predicate of `find_lrc_for_track`'s candidate loop: the
filename parses to a nonempty normalized title equal to the track's
normalized title, and the artist sets match. -/
def lrcMatches (metaTrack metaArtist : String) (p : LrcFile) : Bool :=
  let pr := parse_lrc_filename p.stem
  !(pr.2 == "") && pr.2 == normalize_name metaTrack
    && match_artists (split_artists metaArtist) pr.1

/-- `find_lrc_for_track` of `lrc/matcher.py`.  The directory enumeration
(`config.lrc_dir.rglob("*.lrc")`) is not part of the sources and is supplied
here as the list `files`; the spec fixes its order as lexicographic path
order.  The interactive multiple-match prompt loops until the operator
supplies a valid 1-based index; it is modelled by the `choose` oracle giving
the final accepted 0-based index into the candidate list. -/
def find_lrc_for_track (metaTrack metaArtist : String) (files : List LrcFile)
    (interactive : Bool) (choose : List LrcFile → Nat) : Option LrcFile :=
  let candidates := files.filter (lrcMatches metaTrack metaArtist)
  if candidates.isEmpty then none
  else if candidates.length == 1 || !interactive then candidates.head?
  else candidates.get? (choose candidates)

/-- A filesystem path as used by `move_with_dedup`: directory, stem and
suffix (`path.stem` / `path.suffix`); the file name is `stem ++ ext`.  Paths
are taken as already canonical, so `Path.resolve` is the identity and path
equality is structural. -/
structure FPath where
  dir : String
  stem : String
  ext : String
deriving DecidableEq, Repr

/-- The destination path computed by `move_with_dedup` before deduplication:
`dst_dir / f"{new_name}{src.suffix}"` when a new base name is given, else
`dst_dir / src.name`. -/
def moveTarget (src : FPath) (dstDir : String) (newName : Option String) : FPath :=
  match newName with
  | some n => ⟨dstDir, n, src.ext⟩
  | none => ⟨dstDir, src.stem, src.ext⟩

/-- The `_dup` candidate of the deduplication loop:
`dst_dir / f"{stem}_dup{k}{suffix}"`. -/
def dupCand (target : FPath) (k : Nat) : FPath :=
  ⟨target.dir, target.stem ++ "_dup" ++ toString k, target.ext⟩

/-- The deduplication loop of `move_with_dedup`: the smallest `k ≥ 1` whose
`_dup{k}` candidate does not exist.  The source loop is unbounded; since the
finite filesystem `fs` can block at most `fs.length` distinct names, the
search is exhaustive within `fs.length + 1` candidates and the default branch
is unreachable. -/
def dedupK (fs : List FPath) (target : FPath) : Nat :=
  match (List.range (fs.length + 1)).find? (fun i => !(fs.contains (dupCand target (i + 1)))) with
  | some i => i + 1
  | none => fs.length + 2

/-- `move_with_dedup` of `fs/mover.py`, over a filesystem modelled as the
list of existing files.  Returns the updated filesystem and the final path:
moving a file onto itself returns the source unchanged without touching the
filesystem; an existing distinct target gets a `_dup{k}` name; otherwise the
file is renamed onto the target.  (`dst_dir.mkdir` and the exception fallback
returning `None` have no counterpart in this failure-free model.) -/
def move_with_dedup (fs : List FPath) (src : FPath) (dstDir : String)
    (newName : Option String) : List FPath × Option FPath :=
  let target := moveTarget src dstDir newName
  if target = src then (fs, some src)
  else
    let tgt2 := if fs.contains target then dupCand target (dedupK fs target) else target
    (fs.erase src ++ [tgt2], some tgt2)

/-- `LyricsRecord` of `model/lyrics.py`, restricted to the fields
`process_track` consults (`plain`, `synced`, `instrumental`; the
track/artist/album/duration fields play no role in the control flow). -/
structure LyricsRecord where
  plain : String
  synced : String
  instrumental : Bool
deriving DecidableEq, Repr

/-- The operator's answer to the missing-local-LRC menu of `process_track`
(`[s]` skip / `[m]` manual path / `[i]` instrumental / `[q]` quit); the
re-prompt on invalid input is modelled by taking the first valid choice. -/
inductive MissingChoice where
  | skip
  | manual (p : String)
  | instr
  | quit
deriving DecidableEq, Repr

/-- The externally visible effects of `process_track`, in order: the two
remote lookups, the local-file resolution, the standardized rewrite of the
lyric file (`write_lrc_file`), the operator's upload confirmation, the two
publish operations with the collaborator's reported outcome, the relocation
step (`_move_after_done`), and program exit. -/
inductive Ev where
  | getCached
  | getExternal
  | findLrc
  | writeFile (path : String) (content : String) (ok : Bool)
  | confirm (ans : Bool)
  | publishLyrics (ok : Bool)
  | publishInstr (ok : Bool)
  | relocate
  | exitProgram
deriving DecidableEq, Repr

/-- The inputs `process_track` consumes from its collaborators: the two
lookup responses, the local resolution result, the content of the lyric file
that ends up used, the `write_lrc_file` outcome, the operator's answers, and
the publish outcomes reported by the upload collaborators. -/
structure ProcIn where
  cached : Option LyricsRecord
  external : Option LyricsRecord
  lrcFound : Option String
  lrcContent : String
  writeOk : Bool
  useExternalAnswer : Bool
  missingChoice : MissingChoice
  confirmAnswer : Bool
  okLyrics : Bool
  okInstr : Bool
deriving Repr

/-- Python `str.strip()` on `String` (used for
`parsed.plain.strip()` / `parsed.synced.strip()`). -/
def pyStripS (s : String) : String :=
  String.mk (pyStripL s.data)

/-- Steps 4–5 of `process_track` once a lyric file `p` is in hand: parse it,
return on dry-run after previewing, rewrite the file with the standardized
synced content, decide instrumental-vs-lyrics upload, ask for confirmation
unless auto-accepting, publish, and relocate only on reported success. -/
def afterResolve (autoYes dryRun : Bool) (inp : ProcIn) (p : String) : List Ev :=
  let parsed := parse_lrc true inp.lrcContent
  if dryRun then []
  else
    let wr := [Ev.writeFile p parsed.synced inp.writeOk]
    let conf := if autoYes then [] else [Ev.confirm inp.confirmAnswer]
    let goAhead := autoYes || inp.confirmAnswer
    let treatInstr := parsed.is_instrumental
      || (pyStripS parsed.plain == "" && pyStripS parsed.synced == "")
    if treatInstr then
      wr ++ conf ++
        (if goAhead then
          Ev.publishInstr inp.okInstr :: (if inp.okInstr then [Ev.relocate] else [])
        else [])
    else
      wr ++ conf ++
        (if goAhead then
          Ev.publishLyrics inp.okLyrics :: (if inp.okLyrics then [Ev.relocate] else [])
        else [])

/-- Step 3 of `process_track`: resolve the local LRC file; when none is
found, return on dry-run, otherwise follow the operator's menu choice (skip,
manual path, instrumental upload, or quit). -/
def continueLocal (autoYes dryRun : Bool) (inp : ProcIn) : List Ev :=
  Ev.findLrc ::
    match inp.lrcFound with
    | some p => afterResolve autoYes dryRun inp p
    | none =>
      if dryRun then []
      else
        match inp.missingChoice with
        | .skip => []
        | .manual p => afterResolve autoYes dryRun inp p
        | .instr =>
          Ev.publishInstr inp.okInstr :: (if inp.okInstr then [Ev.relocate] else [])
        | .quit => [Ev.exitProgram]

/-- `process_track` of `processor/core.py` as the ordered trace of its
externally visible effects.  A cache hit relocates immediately without
uploading; an external hit is offered to the operator (auto-accepted under
`auto_yes`) and, if taken, published and relocated on success; otherwise
processing falls through to local resolution. -/
def process_track (autoYes dryRun : Bool) (inp : ProcIn) : List Ev :=
  Ev.getCached ::
    match inp.cached with
    | some _ => [Ev.findLrc, Ev.relocate]
    | none =>
      Ev.getExternal ::
        match inp.external with
        | some ext =>
          if dryRun then []
          else if autoYes || inp.useExternalAnswer then
            if ext.instrumental then
              Ev.publishInstr inp.okInstr ::
                (if inp.okInstr then [Ev.findLrc, Ev.relocate] else [])
            else
              Ev.publishLyrics inp.okLyrics ::
                (if inp.okLyrics then [Ev.findLrc, Ev.relocate] else [])
          else continueLocal autoYes dryRun inp
        | none => continueLocal autoYes dryRun inp

/-- Is the event a publish call (`upload_lyrics` / `upload_instrumental`)? -/
def isPublish : Ev → Bool
  | .publishLyrics _ => true
  | .publishInstr _ => true
  | _ => false

/-- Number of publish calls in a trace. -/
def countPublish (tr : List Ev) : Nat :=
  (tr.filter isPublish).length

/-- Lexicographic order on paths (by Unicode code point), the enumeration
order the spec fixes for the directory scan. -/
def pathLe : List Char → List Char → Bool
  | [], _ => true
  | _ :: _, [] => false
  | a :: as, b :: bs => if a == b then pathLe as bs else decide (a.toNat < b.toNat)

/-- An ASCII character that `normalize_name` can emit: printable, not an
uppercase letter (the pipeline lowercases before any step that could
reintroduce uppercase, which cannot happen for ASCII input). -/
def goodChar (c : Char) : Prop :=
  0x20 ≤ c.toNat ∧ c.toNat ≤ 0x7e ∧ ¬(0x41 ≤ c.toNat ∧ c.toNat ≤ 0x5a)

/-- Whitespace is fully collapsed: no two adjacent whitespace characters,
and every whitespace character is the plain space. -/
def NoWsRun (l : List Char) : Prop :=
  l.Chain' (fun a b => ¬(isPyWs a = true ∧ isPyWs b = true)) ∧
    ∀ c ∈ l, isPyWs c = true → c = ' '

/-- The canonical form `normalize_name` produces from ASCII input: printable
lowercase-stable ASCII characters, collapsed whitespace, and no whitespace at
either boundary.  Strings of this form are fixed points of the
normalization. -/
def Canon (l : List Char) : Prop :=
  (∀ c ∈ l, goodChar c) ∧ NoWsRun l ∧
    (∀ x, l.head? = some x → isPyWs x = false) ∧
    (∀ x, l.getLast? = some x → isPyWs x = false)

/-- C1 (counterexample): a file whose only content is the instrumental-marker
phrase `纯音乐，请欣赏` — with no timestamp — parses to empty synced and plain
outputs with `is_instrumental = false`: both outputs end up empty, an
instrumental-marker phrase is the file's only line, and yet the flag is not
set, because the marker line is discarded as pre-timestamp header noise and
emptiness alone never sets the flag in `parse_lrc_file`. -/
theorem bare_marker_not_flagged_instrumental :
    parse_lrc true "纯音乐，请欣赏" = ⟨"", "", false⟩ ∧
    pureContains (pyStripL "纯音乐，请欣赏".data) = true := by
  constructor
  · decide
  · decide

/-- C1 (amended): `parse_lrc_file` sets `is_instrumental` only upon seeing a
timestamped instrumental-marker line at or after the first standard
timestamp; a file whose only content is such a line yields the flag true and
both outputs empty, while an empty file and a bare (untimestamped) marker
file leave the flag false despite both outputs being empty. -/
theorem instrumental_flag_semantics :
    parse_lrc true "[00:00.00]纯音乐，请欣赏" = ⟨"", "", true⟩ ∧
    parse_lrc true "" = ⟨"", "", false⟩ ∧
    parse_lrc true "纯音乐 请欣赏" = ⟨"", "", false⟩ := by
  refine ⟨by decide, by decide, by decide⟩

/-- C2 (counterexample): `split_artists "A feat. B & C"` does not return
`["a", "b", "c"]`. -/
theorem split_artists_feat_claim_false :
    split_artists "A feat. B & C" ≠ ["a", "b", "c"] := by
  decide

/-- C2 (amended): `split_artists "A feat. B & C"` returns
`["a", ". b", "c"]`: the pattern `\bfeat\.?\b` cannot absorb the trailing
period (between `.` and the following space there is no word boundary), so
only `feat` is replaced by the comma and the period survives at the head of
the next token. -/
theorem split_artists_feat_period_kept :
    split_artists "A feat. B & C" = ["a", ". b", "c"] := by
  decide

/-- C3 (counterexample): the header-tag line `[ar:Foo]`, occurring before the
first standard-timestamp line, is not retained in the synced output — the
parse of `"[ar:Foo]\n[00:00.00]hello"` has synced output `"[00:00.00]hello"`,
with the header line discarded, refuting retention "regardless of where in
the file the header line occurs". -/
theorem header_before_first_timestamp_discarded :
    headerTag (pyStripL "[ar:Foo]".data) = true ∧
    parse_lrc true "[ar:Foo]\n[00:00.00]hello" = ⟨"[00:00.00]hello", "hello", false⟩ := by
  refine ⟨by decide, by decide⟩

/-- C4 (counterexample): the credit line `作词：张三` without a leading
timestamp, occurring after the first timestamp line, is retained in both the
synced and the plain output (the credit filter only runs on lines that begin
with an extended timestamp; an untagged line falls through to the defensive
keep-verbatim branch). -/
theorem untagged_credit_line_retained :
    creditLine (pyStripL "作词：张三".data) = true ∧
    parse_lrc true "[00:00.00]hello\n作词：张三" =
      ⟨"[00:00.00]hello\n作词：张三", "hello\n作词：张三", false⟩ := by
  refine ⟨by decide, by decide⟩

/-- C5 (counterexample): `normalize_name` is not idempotent: on the modifier
capital `ᴬ` (U+1D2C) the first pass lowercases before NFKC, which then maps
`ᴬ` to the plain capital `A`; the second pass lowercases that to `a`. -/
theorem normalize_name_not_idempotent :
    normalize_name (normalize_name "ᴬ") ≠ normalize_name "ᴬ" := by
  decide

theorem alpha_not_digit {c : Char} (h : c.isAlpha = true) : c.isDigit = false := by
  have hv : (65 ≤ c.val.toNat ∧ c.val.toNat ≤ 90) ∨ (97 ≤ c.val.toNat ∧ c.val.toNat ≤ 122) := by
    simp only [Char.isAlpha, Char.isUpper, Char.isLower, Bool.or_eq_true,
      Bool.and_eq_true, decide_eq_true_eq, ge_iff_le] at h
    exact h
  by_contra hc
  rw [Bool.not_eq_false] at hc
  have hd : 48 ≤ c.val.toNat ∧ c.val.toNat ≤ 57 := by
    simp only [Char.isDigit, Bool.and_eq_true, decide_eq_true_eq, ge_iff_le] at hc
    exact hc
  omega

theorem digit_not_alpha {c : Char} (h : c.isDigit = true) : c.isAlpha = false := by
  by_contra hc
  rw [Bool.not_eq_false] at hc
  have := alpha_not_digit hc
  rw [h] at this
  simp at this

theorem headerTag_not_ts {s : List Char} (h : headerTag s = true) : tsMatch s = false := by
  by_contra hc
  rw [Bool.not_eq_false] at hc
  unfold tsMatch at hc
  split at hc
  case _ a b c d e f rest =>
    simp only [Bool.and_eq_true] at hc
    unfold headerTag at h
    simp only [Bool.and_eq_true] at h
    exact absurd hc.1.1.1.1.1.1 (by rw [alpha_not_digit h.1.1.1.1]; exact Bool.false_ne_true)
  case _ =>
    exact Bool.false_ne_true hc

theorem headerTag_nonempty {s : List Char} (h : headerTag s = true) : s.isEmpty = false := by
  cases s with
  | nil => simp [headerTag] at h
  | cons c cs => rfl

/-- C3 (amended): a header-tag line is retained verbatim in the synced output
and excluded from the plain output whenever it occurs at or after the first
standard-timestamp line (parser state `started`); a header-tag line before
the first standard timestamp is discarded entirely as file-header noise. -/
theorem header_line_step (rt : Bool) (st : PState) (line : List Char)
    (h : headerTag (pyStripL line) = true) :
    (st.started = true →
      stepFn rt st line = { st with synced := st.synced ++ [line], prev := none }) ∧
    (st.started = false → stepFn rt st line = st) := by
  have hts := headerTag_not_ts h
  have hne := headerTag_nonempty h
  constructor
  · intro hs
    cases st
    simp only [PState.started] at hs
    subst hs
    simp [stepFn, hts, hne, h]
  · intro hs
    cases st
    simp only [PState.started] at hs
    subst hs
    simp [stepFn, hts, hne, h]

theorem extTs_not_header {s ts r : List Char}
    (h : extTs s = some (ts, r)) : headerTag s = false := by
  unfold extTs at h
  split at h
  case _ a b c d rest =>
    split at h
    case isTrue hd =>
      simp only [Bool.and_eq_true] at hd
      have ha := digit_not_alpha hd.1.1.1
      simp [headerTag, ha]
    case isFalse => simp at h
  case _ => simp at h

theorem extTs_nonempty {s ts r : List Char}
    (h : extTs s = some (ts, r)) : s.isEmpty = false := by
  unfold extTs at h
  split at h
  case _ a b c d rest => rfl
  case _ => simp at h

/-- C4 (amended): a credit line is dropped from both the synced and the plain
output when it carries a leading extended timestamp (and its text is not an
instrumental marker, which takes priority); the credit filter of
`parse_lrc_file` runs only on timestamped lines, so an untagged credit line
is instead kept by the defensive fallback (see the counterexample). -/
theorem credit_line_step (rt : Bool) (st : PState) (line ts restRaw : List Char)
    (hstart : st.started = true)
    (hext : extTs (pyStripL line) = some (ts, restRaw))
    (hne : (pyStripL restRaw).isEmpty = false)
    (hcr : creditLine (pyStripL restRaw) = true)
    (hpm : pureContains (pyStripL restRaw) = false) :
    stepFn rt st line = { st with prev := none } := by
  have hh := extTs_not_header hext
  have hsne := extTs_nonempty hext
  cases st
  simp only [PState.started] at hstart
  subst hstart
  simp [stepFn, hsne, hh, hext, hne, hcr, hpm]

theorem pathLe_refl (l : List Char) : pathLe l l = true := by
  induction l with
  | nil => rfl
  | cons c cs ih => simp [pathLe, ih]

/-- C6: with the directory enumeration supplied in lexicographic path order
(the order the spec fixes for `rglob`), `find_lrc_for_track` returns none on
zero matches, the unique match regardless of interactivity, and — with
`interactive = false` and several matches — the first match in enumeration
order, which is the lexicographically least matching path. -/
theorem find_lrc_selection_policy (metaTrack metaArtist : String) (files : List LrcFile)
    (choose : List LrcFile → Nat)
    (hsorted : files.Pairwise (fun a b => pathLe a.path.data b.path.data = true)) :
    (files.filter (lrcMatches metaTrack metaArtist) = [] →
      find_lrc_for_track metaTrack metaArtist files false choose = none) ∧
    (∀ c interactive, files.filter (lrcMatches metaTrack metaArtist) = [c] →
      find_lrc_for_track metaTrack metaArtist files interactive choose = some c) ∧
    (files.filter (lrcMatches metaTrack metaArtist) ≠ [] →
      ∃ c, find_lrc_for_track metaTrack metaArtist files false choose = some c ∧
        c ∈ files.filter (lrcMatches metaTrack metaArtist) ∧
        ∀ c' ∈ files.filter (lrcMatches metaTrack metaArtist),
          pathLe c.path.data c'.path.data = true) := by
  refine ⟨?_, ?_, ?_⟩
  · intro h
    simp [find_lrc_for_track, h]
  · intro c interactive h
    simp [find_lrc_for_track, h]
  · intro h
    have hp : (files.filter (lrcMatches metaTrack metaArtist)).Pairwise
        (fun a b => pathLe a.path.data b.path.data = true) := hsorted.filter _
    rcases hcl : files.filter (lrcMatches metaTrack metaArtist) with _ | ⟨c, tl⟩
    · exact absurd hcl h
    · refine ⟨c, ?_, ?_, ?_⟩
      · simp [find_lrc_for_track, hcl]
      · simp [hcl]
      · intro c' hc'
        rw [hcl] at hp
        rcases List.mem_cons.mp hc' with rfl | hmem
        · exact pathLe_refl _
        · exact (List.pairwise_cons.mp hp).1 c' hmem

/-- C7: when the cache-only lookup reports a hit, `process_track` performs
exactly the lookup, the best-effort local-file resolution, and the relocation
step — with zero publish calls — irrespective of every other input, including
whether a local lyric file was found. -/
theorem cache_hit_no_publish (autoYes dryRun : Bool) (inp : ProcIn) (r : LyricsRecord)
    (hc : inp.cached = some r) :
    process_track autoYes dryRun inp = [Ev.getCached, Ev.findLrc, Ev.relocate] ∧
    countPublish (process_track autoYes dryRun inp) = 0 := by
  simp [process_track, hc, countPublish, isPublish]

/-- C9: `move_with_dedup` is a no-op returning the source unchanged when the
computed target is the source itself (same directory and final name); and
when the target exists as a distinct file it never overwrites — the returned
path carries a `_dup{k}` disambiguation suffix (`k ≥ 1`) and the pre-existing
target file is still present afterwards. -/
theorem move_with_dedup_safety (fs : List FPath) (src : FPath) (dstDir : String)
    (newName : Option String) :
    (moveTarget src dstDir newName = src →
      move_with_dedup fs src dstDir newName = (fs, some src)) ∧
    (moveTarget src dstDir newName ≠ src →
      fs.contains (moveTarget src dstDir newName) = true →
      ∃ k, 1 ≤ k ∧
        move_with_dedup fs src dstDir newName =
          (fs.erase src ++ [dupCand (moveTarget src dstDir newName) k],
           some (dupCand (moveTarget src dstDir newName) k)) ∧
        moveTarget src dstDir newName ∈ (move_with_dedup fs src dstDir newName).1) := by
  constructor
  · intro h
    simp [move_with_dedup, h]
  · intro hne hmem
    have hmem' : moveTarget src dstDir newName ∈ fs := by simpa using hmem
    refine ⟨dedupK fs (moveTarget src dstDir newName), ?_, ?_, ?_⟩
    · unfold dedupK
      split <;> omega
    · simp [move_with_dedup, hne, hmem']
    · simp only [move_with_dedup, if_neg hne]
      rw [if_pos (by simpa using hmem')]
      rw [List.mem_append]
      left
      exact (List.mem_erase_of_ne hne).mpr hmem'

/-- C10: in normal (non-dry-run) processing with a resolved local lyric
file — the cache missed and the external result was absent or declined — the
trace begins with the two lookups, the resolution, and the rewrite of the
lyric file with the standardized synced content, before any confirmation or
publish event; this holds for every confirmation answer and upload outcome,
so the file is rewritten even when the upload is declined or fails. -/
theorem lrc_rewritten_before_confirmation (autoYes : Bool) (inp : ProcIn) (p : String)
    (hc : inp.cached = none)
    (hext : inp.external = none ∨ (autoYes = false ∧ inp.useExternalAnswer = false))
    (hl : inp.lrcFound = some p) :
    ∃ rest, process_track autoYes false inp =
      [Ev.getCached, Ev.getExternal, Ev.findLrc,
       Ev.writeFile p (parse_lrc true inp.lrcContent).synced inp.writeOk] ++ rest := by
  have hcl : ∃ rest, continueLocal autoYes false inp =
      [Ev.findLrc, Ev.writeFile p (parse_lrc true inp.lrcContent).synced inp.writeOk] ++ rest := by
    simp only [continueLocal, hl, afterResolve, Bool.false_eq_true, if_false]
    split
    · exact ⟨_, rfl⟩
    · exact ⟨_, rfl⟩
  obtain ⟨rest, hrest⟩ := hcl
  refine ⟨rest, ?_⟩
  rcases hext with hext | ⟨ha, hu⟩
  · simp only [process_track, hc, hext, hrest]
    rfl
  · subst ha
    rcases hx : inp.external with _ | ext
    · simp only [process_track, hc, hx, hrest]
      rfl
    · simp only [process_track, hc, hx, hu, Bool.or_false, Bool.false_eq_true, if_false,
        hrest]
      rfl

theorem afterResolve_publish_failure (autoYes dryRun : Bool) (inp : ProcIn) (p : String)
    (h : Ev.publishLyrics false ∈ afterResolve autoYes dryRun inp p ∨
         Ev.publishInstr false ∈ afterResolve autoYes dryRun inp p) :
    Ev.relocate ∉ afterResolve autoYes dryRun inp p ∧
    countPublish (afterResolve autoYes dryRun inp p) = 1 := by
  unfold afterResolve at h ⊢
  cases dryRun
  · cases autoYes <;> cases hconf : inp.confirmAnswer <;>
      cases hoki : inp.okInstr <;> cases hokl : inp.okLyrics <;>
      by_cases hti : ((parse_lrc true inp.lrcContent).is_instrumental = true ∨
        (pyStripS (parse_lrc true inp.lrcContent).plain = "" ∧
         pyStripS (parse_lrc true inp.lrcContent).synced = "")) <;>
      simp_all [countPublish, isPublish] <;>
      (split <;> simp_all [countPublish, isPublish, List.filter])
  · simp_all

theorem countPublish_findLrc_cons (tr : List Ev) :
    countPublish (Ev.findLrc :: tr) = countPublish tr := by
  simp [countPublish, List.filter, isPublish]

theorem continueLocal_publish_failure (autoYes dryRun : Bool) (inp : ProcIn)
    (h : Ev.publishLyrics false ∈ continueLocal autoYes dryRun inp ∨
         Ev.publishInstr false ∈ continueLocal autoYes dryRun inp) :
    Ev.relocate ∉ continueLocal autoYes dryRun inp ∧
    countPublish (continueLocal autoYes dryRun inp) = 1 := by
  unfold continueLocal at h ⊢
  rcases hl : inp.lrcFound with _ | p
  · simp only [hl] at h ⊢
    cases dryRun
    · rcases hmc : inp.missingChoice with _ | p | _ | _
      · simp_all
      · simp only [hmc] at h ⊢
        have h' : Ev.publishLyrics false ∈ afterResolve autoYes false inp p ∨
            Ev.publishInstr false ∈ afterResolve autoYes false inp p := by
          rcases h with h | h
          · exact Or.inl (by simpa using h)
          · exact Or.inr (by simpa using h)
        have hmain := afterResolve_publish_failure autoYes false inp p h'
        refine ⟨?_, ?_⟩
        · simp [List.mem_cons, hmain.1]
        · rw [countPublish_findLrc_cons]
          exact hmain.2
      · simp only [hmc] at h ⊢
        cases hoki : inp.okInstr <;> simp_all [countPublish, isPublish, List.filter]
      · simp_all
    · simp_all
  · simp only [hl] at h ⊢
    have h' : Ev.publishLyrics false ∈ afterResolve autoYes dryRun inp p ∨
        Ev.publishInstr false ∈ afterResolve autoYes dryRun inp p := by
      rcases h with h | h
      · exact Or.inl (by simpa using h)
      · exact Or.inr (by simpa using h)
    have hmain := afterResolve_publish_failure autoYes dryRun inp p h'
    refine ⟨?_, ?_⟩
    · simp [List.mem_cons, hmain.1]
    · rw [countPublish_findLrc_cons]
      exact hmain.2

/-- C8: whenever an upload collaborator reports failure during
`process_track`, the track is skipped: no relocation occurs and the failing
publish call is the only one in the whole trace (no retry at this layer). -/
theorem publish_failure_skips (autoYes dryRun : Bool) (inp : ProcIn)
    (h : Ev.publishLyrics false ∈ process_track autoYes dryRun inp ∨
         Ev.publishInstr false ∈ process_track autoYes dryRun inp) :
    Ev.relocate ∉ process_track autoYes dryRun inp ∧
    countPublish (process_track autoYes dryRun inp) = 1 := by
  unfold process_track at h ⊢
  rcases hc : inp.cached with _ | r
  · simp only [hc] at h ⊢
    rcases hx : inp.external with _ | ext
    · simp only [hx] at h ⊢
      have h' : Ev.publishLyrics false ∈ continueLocal autoYes dryRun inp ∨
          Ev.publishInstr false ∈ continueLocal autoYes dryRun inp := by
        rcases h with h | h
        · exact Or.inl (by simpa using h)
        · exact Or.inr (by simpa using h)
      have hmain := continueLocal_publish_failure autoYes dryRun inp h'
      refine ⟨?_, ?_⟩
      · simp [List.mem_cons, hmain.1]
      · simp only [countPublish, List.filter, isPublish]
        have := hmain.2
        simp only [countPublish] at this
        exact this
    · simp only [hx] at h ⊢
      cases dryRun
      · by_cases huse : (autoYes || inp.useExternalAnswer) = true
        · simp only [huse, Bool.false_eq_true, if_false, if_true] at h ⊢
          cases hins : ext.instrumental <;>
            cases hoki : inp.okInstr <;> cases hokl : inp.okLyrics <;>
            simp_all [countPublish, isPublish, List.filter]
        · simp only [Bool.not_eq_true] at huse
          simp only [huse, Bool.false_eq_true, if_false] at h ⊢
          have h' : Ev.publishLyrics false ∈ continueLocal autoYes false inp ∨
              Ev.publishInstr false ∈ continueLocal autoYes false inp := by
            rcases h with h | h
            · exact Or.inl (by simpa using h)
            · exact Or.inr (by simpa using h)
          have hmain := continueLocal_publish_failure autoYes false inp h'
          refine ⟨?_, ?_⟩
          · simp [List.mem_cons, hmain.1]
          · simp only [countPublish, List.filter, isPublish]
            have := hmain.2
            simp only [countPublish] at this
            exact this
      · simp_all
  · simp_all

theorem toNat_ofNat_valid {n : Nat} (h : n < 0xd800) : (Char.ofNat n).toNat = n := by
  have hv : n.isValidChar := Or.inl h
  rw [Char.ofNat, dif_pos hv]
  simp [Char.ofNatAux, Char.toNat, UInt32.toNat, BitVec.toNat_ofNatLt]

theorem pyLower_ascii {c : Char} (h : c.toNat < 128) :
    (pyLower c).toNat < 128 ∧ ¬(0x41 ≤ (pyLower c).toNat ∧ (pyLower c).toNat ≤ 0x5a) := by
  unfold pyLower
  by_cases hu : ('A' ≤ c && c ≤ 'Z') = true
  · rw [if_pos hu]
    simp only [Bool.and_eq_true, decide_eq_true_eq] at hu
    have h1 : 65 ≤ c.toNat := hu.1
    have h2 : c.toNat ≤ 90 := hu.2
    rw [toNat_ofNat_valid (by omega)]
    omega
  · rw [if_neg hu]
    have hnat : ¬(65 ≤ c.toNat ∧ c.toNat ≤ 90) := by
      intro hc
      exact hu (by simp only [Bool.and_eq_true, decide_eq_true_eq]; exact ⟨hc.1, hc.2⟩)
    repeat' split
    all_goals
      first
      | (rename_i hx; rw [beq_iff_eq] at hx; subst hx; exact absurd h (by decide))
      | exact ⟨h, hnat⟩

theorem pyLower_fixed {c : Char} (h : goodChar c) : pyLower c = c := by
  obtain ⟨h1, h2, h3⟩ := h
  unfold pyLower
  have hu : ('A' ≤ c && c ≤ 'Z') = false := by
    by_contra hc
    simp only [Bool.not_eq_false, Bool.and_eq_true, decide_eq_true_eq] at hc
    exact h3 ⟨hc.1, hc.2⟩
  rw [hu]
  simp only [Bool.false_eq_true, if_false]
  repeat' split
  all_goals
    first
    | rfl
    | (rename_i hx; rw [beq_iff_eq] at hx; subst hx; exact absurd h2 (by decide))

theorem nfkcChar_ascii {c : Char} (h : c.toNat < 128) : nfkcChar c = [c] := by
  unfold nfkcChar
  repeat' split
  all_goals
    first
    | rfl
    | (rename_i hx; rw [beq_iff_eq] at hx; subst hx; exact absurd h (by decide))

theorem cyrChar_ascii {c : Char} (h : c.toNat < 128) : cyrChar c = c := by
  unfold cyrChar
  repeat' split
  all_goals
    first
    | rfl
    | (rename_i hx; rw [beq_iff_eq] at hx; subst hx; exact absurd h (by decide))

theorem ascii_beq_false {c k : Char} (h : c.toNat < 128) (hk : 128 ≤ k.toNat) :
    (c == k) = false := by
  rw [beq_eq_false_iff_ne]
  rintro rfl
  omega

theorem punctChar_ascii {c : Char} (h : c.toNat < 128) : punctChar c = c := by
  rw [punctChar,
    ascii_beq_false h (show 128 ≤ ('（' : Char).toNat by decide),
    ascii_beq_false h (show 128 ≤ ('）' : Char).toNat by decide),
    ascii_beq_false h (show 128 ≤ ('【' : Char).toNat by decide),
    ascii_beq_false h (show 128 ≤ ('】' : Char).toNat by decide),
    ascii_beq_false h (show 128 ≤ ('：' : Char).toNat by decide),
    ascii_beq_false h (show 128 ≤ ('。' : Char).toNat by decide),
    ascii_beq_false h (show 128 ≤ ('，' : Char).toNat by decide),
    ascii_beq_false h (show 128 ≤ ('！' : Char).toNat by decide),
    ascii_beq_false h (show 128 ≤ ('？' : Char).toNat by decide),
    ascii_beq_false h (show 128 ≤ ('＆' : Char).toNat by decide),
    ascii_beq_false h (show 128 ≤ ('／' : Char).toNat by decide),
    ascii_beq_false h (show 128 ≤ ('；' : Char).toNat by decide)]
  simp

theorem keep_good {c : Char} (h1 : c.toNat < 128) (h2 : ¬(0x41 ≤ c.toNat ∧ c.toNat ≤ 0x5a))
    (hk : keepCh c = true) : goodChar c := by
  unfold keepCh at hk
  rw [Bool.or_eq_true] at hk
  rcases hk with hk | hk
  · rw [Bool.not_eq_eq_eq_not, Bool.not_true] at hk
    simp only [isPyCZ, Bool.or_eq_false_iff, Bool.and_eq_false_iff,
      decide_eq_false_iff_not, not_lt, not_le, beq_eq_false_iff_ne, ne_eq] at hk
    refine ⟨by omega, by omega, h2⟩
  · rw [beq_iff_eq] at hk
    subst hk
    exact ⟨by decide, by decide, by decide⟩

theorem good_keep {c : Char} (h : goodChar c) : keepCh c = true := by
  obtain ⟨h1, h2, _⟩ := h
  have hcz : isPyCZ c = false := by
    simp only [isPyCZ, Bool.or_eq_false_iff, Bool.and_eq_false_iff,
      decide_eq_false_iff_not, not_lt, not_le, beq_eq_false_iff_ne, ne_eq]
    omega
  simp [keepCh, hcz]

theorem good_ws_space {c : Char} (h : goodChar c) (hw : isPyWs c = true) : c = ' ' := by
  obtain ⟨h1, h2, _⟩ := h
  by_cases hc : c = ' '
  · exact hc
  · exfalso
    have hne : (c == ' ') = false := by simp [hc]
    simp only [isPyWs, hne, Bool.false_or, Bool.or_eq_true, Bool.and_eq_true,
      decide_eq_true_eq, beq_iff_eq] at hw
    omega

theorem good_space : goodChar ' ' := by
  exact ⟨by decide, by decide, by decide⟩

theorem flatMap_nfkc_ascii (l : List Char) (h : ∀ c ∈ l, c.toNat < 128) :
    l.flatMap nfkcChar = l := by
  induction l with
  | nil => rfl
  | cons c cs ih =>
    rw [List.flatMap_cons, nfkcChar_ascii (h c (by simp)),
      ih (fun x hx => h x (List.mem_cons_of_mem _ hx))]
    rfl

theorem map_cyr_ascii (l : List Char) (h : ∀ c ∈ l, c.toNat < 128) :
    l.map cyrChar = l := by
  induction l with
  | nil => rfl
  | cons c cs ih =>
    rw [List.map_cons, cyrChar_ascii (h c (by simp)),
      ih (fun x hx => h x (List.mem_cons_of_mem _ hx))]

theorem map_punct_ascii (l : List Char) (h : ∀ c ∈ l, c.toNat < 128) :
    l.map punctChar = l := by
  induction l with
  | nil => rfl
  | cons c cs ih =>
    rw [List.map_cons, punctChar_ascii (h c (by simp)),
      ih (fun x hx => h x (List.mem_cons_of_mem _ hx))]

theorem map_lower_fixed (l : List Char) (h : ∀ c ∈ l, goodChar c) :
    l.map pyLower = l := by
  induction l with
  | nil => rfl
  | cons c cs ih =>
    rw [List.map_cons, pyLower_fixed (h c (by simp)),
      ih (fun x hx => h x (List.mem_cons_of_mem _ hx))]

theorem filter_keep_fixed (l : List Char) (h : ∀ c ∈ l, goodChar c) :
    l.filter keepCh = l :=
  List.filter_eq_self.mpr (fun c hc => good_keep (h c hc))

theorem dropTrailWs_sublist (l : List Char) : (dropTrailWs l).Sublist l := by
  induction l with
  | nil => exact List.Sublist.refl _
  | cons c cs ih =>
    rw [dropTrailWs]
    split
    · exact List.nil_sublist _
    · exact ih.cons₂ c

theorem pyStripL_subset (l : List Char) : ∀ c ∈ pyStripL l, c ∈ l := by
  intro c hc
  unfold pyStripL at hc
  exact (List.dropWhile_sublist isPyWs).subset ((dropTrailWs_sublist _).subset hc)

theorem collapse_skip_eq (l : List Char) :
    collapseWsSkip l = collapseWs (l.dropWhile isPyWs) := by
  induction l with
  | nil => rfl
  | cons c cs ih =>
    rw [collapseWsSkip, List.dropWhile_cons]
    by_cases hc : isPyWs c = true
    · rw [if_pos hc, if_pos hc, ih]
    · rw [if_neg hc, if_neg hc, collapseWs, if_neg hc]

theorem collapse_good (l : List Char) :
    ((∀ c ∈ l, goodChar c) → ∀ c ∈ collapseWs l, goodChar c) ∧
    ((∀ c ∈ l, goodChar c) → ∀ c ∈ collapseWsSkip l, goodChar c) := by
  induction l with
  | nil => exact ⟨fun _ c hc => absurd hc (by simp [collapseWs]),
      fun _ c hc => absurd hc (by simp [collapseWsSkip])⟩
  | cons c cs ih =>
    have htail : (∀ x ∈ c :: cs, goodChar x) → ∀ x ∈ cs, goodChar x :=
      fun h x hx => h x (List.mem_cons_of_mem _ hx)
    constructor
    · intro h x hx
      rw [collapseWs] at hx
      by_cases hc : isPyWs c = true
      · rw [if_pos hc] at hx
        rcases List.mem_cons.mp hx with rfl | hx
        · exact good_space
        · exact ih.2 (htail h) x hx
      · rw [if_neg hc] at hx
        rcases List.mem_cons.mp hx with rfl | hx
        · exact h x (List.mem_cons_self _ _)
        · exact ih.1 (htail h) x hx
    · intro h x hx
      rw [collapseWsSkip] at hx
      by_cases hc : isPyWs c = true
      · rw [if_pos hc] at hx
        exact ih.2 (htail h) x hx
      · rw [if_neg hc] at hx
        rcases List.mem_cons.mp hx with rfl | hx
        · exact h x (List.mem_cons_self _ _)
        · exact ih.1 (htail h) x hx

theorem collapse_nowsrun (l : List Char) :
    NoWsRun (collapseWs l) ∧ NoWsRun (collapseWsSkip l) ∧
    (∀ x, (collapseWsSkip l).head? = some x → isPyWs x = false) := by
  induction l with
  | nil =>
    refine ⟨⟨?_, ?_⟩, ⟨?_, ?_⟩, ?_⟩ <;> simp [collapseWs, collapseWsSkip, List.Chain']
  | cons c cs ih =>
    obtain ⟨ihW, ihS, ihSh⟩ := ih
    by_cases hc : isPyWs c = true
    · refine ⟨?_, ?_, ?_⟩
      · rw [collapseWs, if_pos hc]
        refine ⟨List.chain'_cons'.mpr ⟨?_, ihS.1⟩, ?_⟩
        · intro y hy
          rw [ihSh y hy]
          simp
        · intro x hx hw
          rcases List.mem_cons.mp hx with rfl | hx
          · rfl
          · exact ihS.2 x hx hw
      · rw [collapseWsSkip, if_pos hc]
        exact ihS
      · rw [collapseWsSkip, if_pos hc]
        exact ihSh
    · have hstep : collapseWs (c :: cs) = c :: collapseWs cs := by
        rw [collapseWs, if_neg hc]
      have hskip : collapseWsSkip (c :: cs) = c :: collapseWs cs := by
        rw [collapseWsSkip, if_neg hc]
      have hmain : NoWsRun (c :: collapseWs cs) := by
        refine ⟨List.chain'_cons'.mpr ⟨?_, ihW.1⟩, ?_⟩
        · intro y _
          intro hcon
          exact hc hcon.1
        · intro x hx hw
          rcases List.mem_cons.mp hx with rfl | hx
          · exact absurd hw hc
          · exact ihW.2 x hx hw
      refine ⟨?_, ?_, ?_⟩
      · rw [hstep]; exact hmain
      · rw [hskip]; exact hmain
      · rw [hskip]
        intro x hx
        rw [List.head?_cons, Option.some_inj] at hx
        subst hx
        simpa using hc

theorem collapse_fixed (l : List Char) (h : NoWsRun l) : collapseWs l = l := by
  induction l with
  | nil => rfl
  | cons c cs ih =>
    have htail : NoWsRun cs :=
      ⟨(List.chain'_cons'.mp h.1).2, fun x hx hw => h.2 x (List.mem_cons_of_mem _ hx) hw⟩
    by_cases hc : isPyWs c = true
    · have hsp : c = ' ' := h.2 c (List.mem_cons_self _ _) hc
      rw [collapseWs, if_pos hc, collapse_skip_eq]
      have hdw : cs.dropWhile isPyWs = cs := by
        cases cs with
        | nil => rfl
        | cons d ds =>
          have hrel := (List.chain'_cons'.mp h.1).1 d (by simp)
          have hd : isPyWs d = false := by
            by_contra hdd
            rw [Bool.not_eq_false] at hdd
            exact hrel ⟨hc, hdd⟩
          rw [List.dropWhile_cons, hd]
          simp
      rw [hdw, ih htail, hsp]
    · rw [collapseWs, if_neg hc, ih htail]

theorem dropWhile_head_not (p : Char → Bool) (l : List Char) :
    ∀ x, (l.dropWhile p).head? = some x → p x = false := by
  induction l with
  | nil => intro x hx; simp at hx
  | cons c cs ih =>
    intro x hx
    rw [List.dropWhile_cons] at hx
    by_cases hc : p c = true
    · rw [if_pos hc] at hx
      exact ih x hx
    · rw [if_neg hc] at hx
      rw [List.head?_cons, Option.some_inj] at hx
      subst hx
      simpa using hc

theorem dropTrail_head_pres (l : List Char) :
    ∀ x, (dropTrailWs l).head? = some x → l.head? = some x := by
  induction l with
  | nil => intro x hx; simp [dropTrailWs] at hx
  | cons c cs _ =>
    intro x hx
    rw [dropTrailWs] at hx
    split at hx
    · simp at hx
    · rw [List.head?_cons, Option.some_inj] at hx
      subst hx
      rfl

theorem dropTrail_last_not (l : List Char) :
    ∀ x, (dropTrailWs l).getLast? = some x → isPyWs x = false := by
  induction l with
  | nil => intro x hx; simp [dropTrailWs] at hx
  | cons c cs ih =>
    intro x hx
    rw [dropTrailWs] at hx
    split at hx
    · simp at hx
    · rename_i hcond
      rcases hr : dropTrailWs cs with _ | ⟨d, ds⟩
      · rw [hr] at hx hcond
        simp only [List.getLast?_singleton, Option.some_inj] at hx
        subst hx
        simp only [List.isEmpty_nil, Bool.true_and] at hcond
        simpa using hcond
      · rw [hr] at hx
        rw [List.getLast?_cons_cons] at hx
        exact ih x (hr ▸ hx)

theorem chain'_dropWhile {R : Char → Char → Prop} (p : Char → Bool) (l : List Char)
    (h : l.Chain' R) : (l.dropWhile p).Chain' R := by
  induction l with
  | nil => exact h
  | cons c cs ih =>
    rw [List.dropWhile_cons]
    by_cases hc : p c = true
    · rw [if_pos hc]
      exact ih (List.chain'_cons'.mp h).2
    · rw [if_neg hc]
      exact h

theorem chain'_dropTrail {R : Char → Char → Prop} (l : List Char)
    (h : l.Chain' R) : (dropTrailWs l).Chain' R := by
  induction l with
  | nil => exact h
  | cons c cs ih =>
    rw [dropTrailWs]
    split
    · exact List.chain'_nil
    · refine List.chain'_cons'.mpr ⟨?_, ih (List.chain'_cons'.mp h).2⟩
      intro y hy
      exact (List.chain'_cons'.mp h).1 y (dropTrail_head_pres cs y hy)

theorem dropWhile_eq_self (p : Char → Bool) (l : List Char)
    (h : ∀ x, l.head? = some x → p x = false) : l.dropWhile p = l := by
  cases l with
  | nil => rfl
  | cons c cs =>
    rw [List.dropWhile_cons, h c rfl]
    simp

theorem dropTrail_eq_self (l : List Char)
    (h : ∀ x, l.getLast? = some x → isPyWs x = false) : dropTrailWs l = l := by
  induction l with
  | nil => rfl
  | cons c cs ih =>
    rw [dropTrailWs]
    cases cs with
    | nil =>
      have := h c rfl
      simp [dropTrailWs, this]
    | cons d ds =>
      have hcs : dropTrailWs (d :: ds) = d :: ds :=
        ih (fun x hx => h x (by rw [List.getLast?_cons_cons]; exact hx))
      rw [hcs]
      simp

theorem strip_eq_self (l : List Char)
    (hh : ∀ x, l.head? = some x → isPyWs x = false)
    (hl : ∀ x, l.getLast? = some x → isPyWs x = false) : pyStripL l = l := by
  rw [pyStripL, dropWhile_eq_self _ _ hh, dropTrail_eq_self _ hl]

theorem strip_nowsrun (l : List Char) (h : NoWsRun l) : NoWsRun (pyStripL l) :=
  ⟨chain'_dropTrail _ (chain'_dropWhile _ _ h.1),
   fun x hx hw => h.2 x (pyStripL_subset l x hx) hw⟩

theorem strip_head_not (l : List Char) :
    ∀ x, (pyStripL l).head? = some x → isPyWs x = false := by
  intro x hx
  exact dropWhile_head_not isPyWs l x (dropTrail_head_pres _ x hx)

theorem strip_last_not (l : List Char) :
    ∀ x, (pyStripL l).getLast? = some x → isPyWs x = false := by
  intro x hx
  exact dropTrail_last_not _ x hx

theorem normalizeL_canon (s : List Char) (h : ∀ c ∈ s, c.toNat < 128) :
    Canon (normalizeL s) := by
  simp only [normalizeL]
  have hb : ∀ c ∈ pyStripL s, c.toNat < 128 := fun c hc => h c (pyStripL_subset s c hc)
  have hm : ∀ c ∈ (pyStripL s).map pyLower,
      c.toNat < 128 ∧ ¬(0x41 ≤ c.toNat ∧ c.toNat ≤ 0x5a) := by
    intro c hc
    rw [List.mem_map] at hc
    obtain ⟨a, ha, rfl⟩ := hc
    exact pyLower_ascii (hb a ha)
  have hm1 : ∀ c ∈ (pyStripL s).map pyLower, c.toNat < 128 := fun c hc => (hm c hc).1
  rw [flatMap_nfkc_ascii _ hm1, map_cyr_ascii _ hm1, map_punct_ascii _ hm1]
  have hgood : ∀ c ∈ ((pyStripL s).map pyLower).filter keepCh, goodChar c := by
    intro c hc
    have hmem := List.mem_of_mem_filter hc
    exact keep_good (hm c hmem).1 (hm c hmem).2 (List.of_mem_filter hc)
  have hcg := (collapse_good _).1 hgood
  exact ⟨fun c hc => hcg c (pyStripL_subset _ c hc),
    strip_nowsrun _ (collapse_nowsrun _).1,
    strip_head_not _, strip_last_not _⟩

theorem canon_fixed (l : List Char) (hc : Canon l) : normalizeL l = l := by
  obtain ⟨hg, hnr, hh, hl⟩ := hc
  have hascii : ∀ c ∈ l, c.toNat < 128 := by
    intro c h
    have := (hg c h).2.1
    omega
  simp only [normalizeL]
  rw [strip_eq_self l hh hl, map_lower_fixed l hg, flatMap_nfkc_ascii l hascii,
    map_cyr_ascii l hascii, map_punct_ascii l hascii, filter_keep_fixed l hg,
    collapse_fixed l hnr, strip_eq_self l hh hl]

/-- C5 (amended): `normalize_name` is idempotent on ASCII strings.  The
failure of idempotence is confined to characters whose NFKC image introduces
fresh uppercase letters after the initial lowercasing (such as the modifier
capitals); for ASCII input the output is printable lowercase-stable ASCII
with collapsed interior whitespace, which every pass maps to itself. -/
theorem normalize_name_idempotent_ascii (s : String)
    (h : ∀ c ∈ s.data, c.toNat < 128) :
    normalize_name (normalize_name s) = normalize_name s := by
  unfold normalize_name
  exact congrArg String.mk (canon_fixed _ (normalizeL_canon s.data h))

theorem header_line_step_witness :
    headerTag (pyStripL ("[ar:Foo]".data)) = true ∧
    stepFn true ⟨[], [], false, true, none⟩ ("[ar:Foo]".data) =
      ⟨["[ar:Foo]".data], [], false, true, none⟩ ∧
    stepFn true initPS ("[ar:Foo]".data) = initPS :=
  ⟨by decide,
   (header_line_step true ⟨[], [], false, true, none⟩ ("[ar:Foo]".data) (by decide)).1 rfl,
   (header_line_step true initPS ("[ar:Foo]".data) (by decide)).2 rfl⟩

theorem credit_line_step_witness :
    extTs (pyStripL ("[00:10.00]作词：张三".data)) =
      some ("[00:10.00]".data, "作词：张三".data) ∧
    (pyStripL ("作词：张三".data)).isEmpty = false ∧
    creditLine (pyStripL ("作词：张三".data)) = true ∧
    pureContains (pyStripL ("作词：张三".data)) = false ∧
    stepFn true ⟨[], [], false, true, none⟩ ("[00:10.00]作词：张三".data) =
      ⟨[], [], false, true, none⟩ :=
  ⟨by decide, by decide, by decide, by decide,
   credit_line_step true ⟨[], [], false, true, none⟩ ("[00:10.00]作词：张三".data)
     ("[00:10.00]".data) ("作词：张三".data) rfl (by decide) (by decide) (by decide) (by decide)⟩

theorem normalize_name_idempotent_ascii_witness :
    (∀ c ∈ ("Hello   World".data), c.toNat < 128) ∧
    normalize_name (normalize_name "Hello   World") = normalize_name "Hello   World" :=
  ⟨by decide, normalize_name_idempotent_ascii "Hello   World" (by decide)⟩

theorem find_lrc_selection_policy_witness :
    ([⟨"lrc/a & b - song.lrc", "a & b - song"⟩, ⟨"lrc/b - song.lrc", "b - song"⟩] :
        List LrcFile).Pairwise (fun a b => pathLe a.path.data b.path.data = true) ∧
    ([⟨"lrc/a & b - song.lrc", "a & b - song"⟩,
      ⟨"lrc/b - song.lrc", "b - song"⟩] : List LrcFile).filter (lrcMatches "Song" "A & B") ≠ [] ∧
    (∃ c, find_lrc_for_track "Song" "A & B"
        [⟨"lrc/a & b - song.lrc", "a & b - song"⟩, ⟨"lrc/b - song.lrc", "b - song"⟩]
        false (fun _ => 0) = some c ∧
      c ∈ ([⟨"lrc/a & b - song.lrc", "a & b - song"⟩,
            ⟨"lrc/b - song.lrc", "b - song"⟩] : List LrcFile).filter (lrcMatches "Song" "A & B") ∧
      ∀ c' ∈ ([⟨"lrc/a & b - song.lrc", "a & b - song"⟩,
               ⟨"lrc/b - song.lrc", "b - song"⟩] : List LrcFile).filter (lrcMatches "Song" "A & B"),
        pathLe c.path.data c'.path.data = true) :=
  ⟨by decide, by decide,
   (find_lrc_selection_policy "Song" "A & B"
     [⟨"lrc/a & b - song.lrc", "a & b - song"⟩, ⟨"lrc/b - song.lrc", "b - song"⟩]
     (fun _ => 0) (by decide)).2.2 (by decide)⟩

theorem cache_hit_no_publish_witness :
    (⟨some ⟨"la la", "[00:01.00]la la", false⟩, none, none, "", true, false,
        .skip, false, false, false⟩ : ProcIn).cached =
      some ⟨"la la", "[00:01.00]la la", false⟩ ∧
    process_track false false
        ⟨some ⟨"la la", "[00:01.00]la la", false⟩, none, none, "", true, false,
          .skip, false, false, false⟩ =
      [Ev.getCached, Ev.findLrc, Ev.relocate] ∧
    countPublish (process_track false false
        ⟨some ⟨"la la", "[00:01.00]la la", false⟩, none, none, "", true, false,
          .skip, false, false, false⟩) = 0 :=
  ⟨rfl,
   (cache_hit_no_publish false false _ ⟨"la la", "[00:01.00]la la", false⟩ rfl).1,
   (cache_hit_no_publish false false _ ⟨"la la", "[00:01.00]la la", false⟩ rfl).2⟩

theorem publish_failure_skips_witness :
    (Ev.publishLyrics false ∈ process_track true false
        ⟨none, none, some "x.lrc", "[00:00.00]hi", true, false, .skip, false, false, false⟩ ∨
     Ev.publishInstr false ∈ process_track true false
        ⟨none, none, some "x.lrc", "[00:00.00]hi", true, false, .skip, false, false, false⟩) ∧
    Ev.relocate ∉ process_track true false
        ⟨none, none, some "x.lrc", "[00:00.00]hi", true, false, .skip, false, false, false⟩ ∧
    countPublish (process_track true false
        ⟨none, none, some "x.lrc", "[00:00.00]hi", true, false, .skip, false, false, false⟩) = 1 :=
  ⟨Or.inl (by decide),
   (publish_failure_skips true false _ (Or.inl (by decide))).1,
   (publish_failure_skips true false _ (Or.inl (by decide))).2⟩

theorem move_with_dedup_safety_witness :
    (moveTarget ⟨"d", "f", ".mp3"⟩ "d" none = ⟨"d", "f", ".mp3"⟩ ∧
     move_with_dedup [⟨"d", "f", ".mp3"⟩] ⟨"d", "f", ".mp3"⟩ "d" none =
       ([⟨"d", "f", ".mp3"⟩], some ⟨"d", "f", ".mp3"⟩)) ∧
    (moveTarget ⟨"s", "g", ".mp3"⟩ "d" none ≠ ⟨"s", "g", ".mp3"⟩ ∧
     ([⟨"s", "g", ".mp3"⟩, ⟨"d", "g", ".mp3"⟩] : List FPath).contains
       (moveTarget ⟨"s", "g", ".mp3"⟩ "d" none) = true ∧
     ∃ k, 1 ≤ k ∧
       move_with_dedup [⟨"s", "g", ".mp3"⟩, ⟨"d", "g", ".mp3"⟩] ⟨"s", "g", ".mp3"⟩ "d" none =
         (([⟨"s", "g", ".mp3"⟩, ⟨"d", "g", ".mp3"⟩] : List FPath).erase ⟨"s", "g", ".mp3"⟩ ++
            [dupCand (moveTarget ⟨"s", "g", ".mp3"⟩ "d" none) k],
          some (dupCand (moveTarget ⟨"s", "g", ".mp3"⟩ "d" none) k)) ∧
       moveTarget ⟨"s", "g", ".mp3"⟩ "d" none ∈
         (move_with_dedup [⟨"s", "g", ".mp3"⟩, ⟨"d", "g", ".mp3"⟩]
           ⟨"s", "g", ".mp3"⟩ "d" none).1) :=
  ⟨⟨by decide, (move_with_dedup_safety [⟨"d", "f", ".mp3"⟩] ⟨"d", "f", ".mp3"⟩ "d" none).1
      (by decide)⟩,
   ⟨by decide, by decide,
    (move_with_dedup_safety [⟨"s", "g", ".mp3"⟩, ⟨"d", "g", ".mp3"⟩]
        ⟨"s", "g", ".mp3"⟩ "d" none).2 (by decide) (by decide)⟩⟩

theorem lrc_rewritten_before_confirmation_witness :
    (⟨none, none, some "x.lrc", "[00:00.00]hi", true, false, .skip, false, true, true⟩ :
        ProcIn).cached = none ∧
    (⟨none, none, some "x.lrc", "[00:00.00]hi", true, false, .skip, false, true, true⟩ :
        ProcIn).lrcFound = some "x.lrc" ∧
    (∃ rest, process_track false false
        ⟨none, none, some "x.lrc", "[00:00.00]hi", true, false, .skip, false, true, true⟩ =
      [Ev.getCached, Ev.getExternal, Ev.findLrc,
       Ev.writeFile "x.lrc" (parse_lrc true "[00:00.00]hi").synced true] ++ rest) :=
  ⟨rfl, rfl,
   lrc_rewritten_before_confirmation false
     ⟨none, none, some "x.lrc", "[00:00.00]hi", true, false, .skip, false, true, true⟩
     "x.lrc" rfl (Or.inl rfl) rfl⟩
